import Mathlib

set_option linter.unusedVariables false

/-!  A shallow embedding of `amazon_review_framework.py`: a command-line
assistant that turns an initial product review plus optional images into a
multi-turn conversation with a remote model and persists the transcript to
`amazon_review_conversation.txt` when the operator types the sentinel
`exit`.  Console and network effects are modelled by explicit parameters: a
directory listing and a path-to-bytes map for the filesystem, a list of
scripted model responses and a list of scripted operator input lines for
the loop.  -/

/-- One typed part of a message's content: a text fragment, or an inline
base64 image with a declared media type (the `source.media_type` and
`source.data` fields of the Python dict). -/
inductive ContentItem where
  | text (text : String)
  | image (media_type : String) (data : String)
deriving DecidableEq

/-- A message's `content` field: either a plain string or a list of parts,
mirroring the `isinstance(message['content'], str)` distinction. -/
inductive MessageContent where
  | str (s : String)
  | parts (items : List ContentItem)
deriving DecidableEq

/-- An entry of the `messages` list: a role and a content. -/
structure Message where
  role : String
  content : MessageContent
deriving DecidableEq

/-- Python `str.lower()` (over the ASCII range these programs use):
lower-case every character. -/
def str_lower (s : String) : String := String.mk (s.data.map Char.toLower)

/-- Python `str.upper()`: upper-case every character. -/
def str_upper (s : String) : String := String.mk (s.data.map Char.toUpper)

/-- Python `str.endswith(post)`. -/
def str_endswith (s post : String) : Bool := post.data.isSuffixOf s.data

/-- The base64 alphabet used by `base64.b64encode`. -/
def base64Chars : List Char :=
  "ABCDEFGHIJKLMNOPQRSTUVWXYZabcdefghijklmnopqrstuvwxyz0123456789+/".data

/-- The base64 digit for a 6-bit value. -/
def b64char (n : Nat) : Char := base64Chars.getD n 'A'

/-- `base64.b64encode(data).decode('utf-8')`: standard base64 with `=`
padding, over a byte list (each entry below 256). -/
def b64encode : List Nat → String
  | [] => ""
  | [a] => String.mk [b64char (a / 4 % 64), b64char (a % 4 * 16), '=', '=']
  | [a, b] =>
      String.mk [b64char (a / 4 % 64), b64char (a % 4 * 16 + b / 16),
        b64char (b % 16 * 4), '=']
  | a :: b :: c :: rest =>
      String.mk [b64char (a / 4 % 64), b64char (a % 4 * 16 + b / 16),
        b64char (b % 16 * 4 + c / 64), b64char (c % 64)] ++ b64encode rest

/-- `encode_image`: open the file and base64-encode its bytes.  The
filesystem is a map from path to byte content; `none` models a missing or
unreadable file, on which the Python version raises. -/
def encode_image (fileBytes : String → Option (List Nat)) (image_path : String) :
    Option String :=
  (fileBytes image_path).map b64encode

/-- The recognized image extensions of `get_image_files`. -/
def image_extensions : List String := [".jpg", ".jpeg", ".png", ".gif", ".webp"]

/-- `get_image_files`: scan the `images` directory (modelled by `dirExists`
for `os.path.exists('images')` and `listing` for `os.listdir('images')`),
keep the names that case-insensitively end in a recognized extension, and
join each with the directory name. -/
def get_image_files (dirExists : Bool) (listing : List String) : List String :=
  if dirExists then
    (listing.filter fun file =>
      image_extensions.any fun ext => str_endswith (str_lower file) ext).map
      fun file => "images/" ++ file
  else []

/-- Index of the last occurrence of `c` in the list, as `str.rfind` returns
it. -/
def rfindIdx (c : Char) : List Char → Option Nat
  | [] => none
  | a :: rest =>
      match rfindIdx c rest with
      | some i => some (i + 1)
      | none => if a = c then some 0 else none

/-- The extension component of `os.path.splitext` on a posix path: the
suffix from the last dot, provided that dot comes after the last slash and
some non-dot character precedes it within the basename (a basename of
leading dots has no extension). -/
def splitext_ext (p : String) : String :=
  let l := p.data
  let sepIndex : Int := match rfindIdx '/' l with | some i => (i : Int) | none => -1
  let dotIndex : Int := match rfindIdx '.' l with | some i => (i : Int) | none => -1
  if sepIndex < dotIndex then
    let basePreDot := (l.drop (sepIndex + 1).toNat).take (dotIndex - sepIndex - 1).toNat
    if basePreDot.any fun ch => ch ≠ '.' then String.mk (l.drop dotIndex.toNat) else ""
  else ""

/-- The text part of the first message: the fixed preamble around the
operator's review, plus the image announcement sentence exactly when at
least one image file was discovered. -/
def first_message_content (initial_review : String) (image_files : List String) :
    String :=
  let base := "Here is my initial product review:\n\n" ++ initial_review ++ "\n\n"
  if image_files.isEmpty then base
  else base ++ "I\x27m also sharing some images of the product for your analysis:\n"

/-- The image parts of the first message: one `image` part per discovered
file, in listing order, with media type `image/` plus the splitext extension
minus its leading dot, and the base64 bytes inline.  The first unreadable
file aborts the whole construction (the Python loop raises out of
`create_amazon_review`), and its path is the error value. -/
def buildImageContent (fileBytes : String → Option (List Nat)) :
    List String → Except String (List ContentItem)
  | [] => .ok []
  | image_path :: rest =>
      match encode_image fileBytes image_path with
      | none => .error image_path
      | some image_base64 =>
          (buildImageContent fileBytes rest).map fun tail =>
            ContentItem.image ("image/" ++ (splitext_ext image_path).drop 1)
              image_base64 :: tail

/-- The single first message of the conversation: role `user`, content a
text part followed by the image parts. -/
def build_first_message (initial_review : String) (dirExists : Bool)
    (listing : List String) (fileBytes : String → Option (List Nat)) :
    Except String Message :=
  let image_files := get_image_files dirExists listing
  (buildImageContent fileBytes image_files).map fun image_content =>
    { role := "user"
      content := .parts
        (ContentItem.text (first_message_content initial_review image_files)
          :: image_content) }

/-- The fixed system prompt of `create_amazon_review`, a triple-quoted
Python literal: it opens with a newline, indents every line by four spaces,
and closes with a newline and four spaces. -/
def system_prompt : String :=
  "\n    You are an expert review assistant that helps transform product experiences into high-quality Amazon reviews.\n    \n    Use the Amazon Review Framework to guide this process. The framework consists of:\n    1. Analyzing the initial review and any provided product images\n    2. Asking targeted questions to gather missing context\n    3. Creating an enhanced draft based on the gathered information\n    4. Refining the review based on user feedback\n    \n    IMPORTANT: You MUST follow these steps in order. After analyzing the initial review and images, \n    ask questions to gather more information BEFORE creating any draft.\n    \n    When analyzing images, use your judgment to identify important product aspects that could enhance the review.\n    Consider how the images complement or contradict the written review, and what additional insights they provide.\n    "

/-- One call to `client.messages.create`: the model name, the system
string, the message history sent, and the `max_tokens` bound. -/
structure Request where
  model : String
  system : String
  messages : List Message
  max_tokens : Nat
deriving DecidableEq

/-- How a scripted run ends: `finished` after the sentinel, carrying the
final message list and the text written to the transcript file; `blocked`
when the script of responses or inputs runs out while the loop would keep
going; `failed` when a response arrives with empty content (the Python
`response.content[0]` raises). -/
inductive Outcome where
  | finished (messages : List Message) (file : String)
  | blocked (messages : List Message)
  | failed (messages : List Message)
deriving DecidableEq

/-- The message list an outcome carries. -/
def Outcome.messages : Outcome → List Message
  | .finished m _ => m
  | .blocked m => m
  | .failed m => m

/-- The text kept from one content item when flattening a message:
`item['text']` when `item['type'] == 'text'`, nothing for an image. -/
def itemText : ContentItem → Option String
  | .text t => some t
  | .image _ _ => none

/-- One message's block in the transcript file: the upper-cased role, a
colon and space, the content (a plain string directly; a part list as the
concatenation of its text parts only), and the two newlines the `f.write`
appends. -/
def renderMessage (message : Message) : String :=
  match message.content with
  | .str s => str_upper message.role ++ ": " ++ s ++ "\n\n"
  | .parts items =>
      str_upper message.role ++ ": "
        ++ String.join (items.filterMap itemText) ++ "\n\n"

/-- The whole transcript: the `for message in messages` loop writes the
blocks in conversation order. -/
def saveConversation : List Message → String
  | [] => ""
  | message :: rest => renderMessage message ++ saveConversation rest

/-- `open(name, "w")` then write: the store maps the file name to the new
content, whatever was there before. -/
def writeFile (fs : String → Option String) (name content : String) :
    String → Option String :=
  fun p => if p = name then some content else fs p

/-- The `while conversation_active` loop.  Each iteration sends one request
carrying the current history, reads the response's first content block as
the assistant text, appends it, then consumes one operator input line: a
line whose lower-casing is `exit` saves the transcript and stops, any other
line is appended as a user message and the loop repeats.  The scripted
`responses` (each a list of text blocks) and `inputs` drive the run; the
requests issued are returned beside the outcome. -/
def conversationLoop (sp : String) (messages : List Message) :
    List (List String) → List String → List Request × Outcome
  | [], _ => ([], .blocked messages)
  | response :: responses, inputs =>
      let req : Request := ⟨"claude-3-7-sonnet-20250219", sp, messages, 4000⟩
      match response.head? with
      | none => ([req], .failed messages)
      | some assistant_message =>
          let messages2 := messages ++ [⟨"assistant", .str assistant_message⟩]
          match inputs with
          | [] => ([req], .blocked messages2)
          | user_response :: inputs2 =>
              if str_lower user_response = "exit" then
                ([req], .finished messages2 (saveConversation messages2))
              else
                let messages3 := messages2 ++ [⟨"user", .str user_response⟩]
                (req :: (conversationLoop sp messages3 responses inputs2).1,
                 (conversationLoop sp messages3 responses inputs2).2)

/-- `create_amazon_review`, relative to the modelled console, filesystem
and remote service: build the first message (aborting on an unreadable
image), then run the loop from the singleton history. -/
def create_amazon_review (initial_review : String) (dirExists : Bool)
    (listing : List String) (fileBytes : String → Option (List Nat))
    (responses : List (List String)) (inputs : List String) :
    Except String (List Request × Outcome) :=
  (build_first_message initial_review dirExists listing fileBytes).map
    fun first => conversationLoop system_prompt [first] responses inputs

/-! ## Shared lemmas about the conversation loop -/

/-- The loop only ever appends to the message list: whatever the scripts
do, the history the loop started from is a prefix of the history it ends
with. -/
theorem conversationLoop_prefix_mono (sp : String) :
    ∀ (responses : List (List String)) (msgs : List Message) (inputs : List String),
      msgs <+: ((conversationLoop sp msgs responses inputs).2).messages := by
  intro responses
  induction responses with
  | nil =>
      intro msgs inputs
      simp [conversationLoop, Outcome.messages]
  | cons r rs ih =>
      intro msgs inputs
      cases hr : r.head? with
      | none => simp [conversationLoop, hr, Outcome.messages]
      | some t =>
          cases inputs with
          | nil =>
              simp [conversationLoop, hr, Outcome.messages]
          | cons u us =>
              by_cases hu : str_lower u = "exit"
              · simp [conversationLoop, hr, hu, Outcome.messages]
              · simp only [conversationLoop, hr, if_neg hu]
                exact (List.prefix_append msgs
                    [⟨"assistant", MessageContent.str t⟩, ⟨"user", MessageContent.str u⟩]).trans
                  (by simpa [List.append_assoc] using
                    ih (msgs ++ [⟨"assistant", MessageContent.str t⟩,
                      ⟨"user", MessageContent.str u⟩]) us)

/-- When the loop finishes, the file written is the flat rendering of the
final message list. -/
theorem conversationLoop_finished_file (sp : String) :
    ∀ (responses : List (List String)) (msgs : List Message) (inputs : List String)
      (m : List Message) (f : String),
      (conversationLoop sp msgs responses inputs).2 = Outcome.finished m f →
      f = saveConversation m := by
  intro responses
  induction responses with
  | nil =>
      intro msgs inputs m f h
      simp [conversationLoop] at h
  | cons r rs ih =>
      intro msgs inputs m f h
      cases hr : r.head? with
      | none => simp [conversationLoop, hr] at h
      | some t =>
          cases inputs with
          | nil => simp [conversationLoop, hr] at h
          | cons u us =>
              by_cases hu : str_lower u = "exit"
              · simp [conversationLoop, hr, hu] at h
                rw [← h.1, ← h.2]
              · simp only [conversationLoop, hr, if_neg hu] at h
                exact ih _ us m f h

/-! ## C1: the exit sentinel -/

/-- C1: in a loop iteration, an operator input whose lower-casing equals
the sentinel `exit` (so `EXIT`, `Exit`, `exit`, ...) always terminates the
run in the very same state — the reply is appended, the transcript of that
history is written, and the sentinel line itself is never appended as a
Message — while any other input line is appended as a `user` Message and
the loop continues with the remaining script. -/
theorem exit_sentinel_spec (sp t u : String) (ts : List String)
    (msgs : List Message) (responses : List (List String)) (inputs : List String) :
    (str_lower u = "exit" →
      conversationLoop sp msgs ((t :: ts) :: responses) (u :: inputs) =
        ([⟨"claude-3-7-sonnet-20250219", sp, msgs, 4000⟩],
          Outcome.finished (msgs ++ [⟨"assistant", MessageContent.str t⟩])
            (saveConversation (msgs ++ [⟨"assistant", MessageContent.str t⟩])))) ∧
    (str_lower u ≠ "exit" →
      conversationLoop sp msgs ((t :: ts) :: responses) (u :: inputs) =
        (⟨"claude-3-7-sonnet-20250219", sp, msgs, 4000⟩ ::
            (conversationLoop sp (msgs ++ [⟨"assistant", MessageContent.str t⟩,
              ⟨"user", MessageContent.str u⟩]) responses inputs).1,
          (conversationLoop sp (msgs ++ [⟨"assistant", MessageContent.str t⟩,
            ⟨"user", MessageContent.str u⟩]) responses inputs).2)) := by
  constructor <;> intro h <;> simp [conversationLoop, h]

/-- Witness for C1: with history `[user r]`, one scripted reply `a` and the
operator typing `EXIT`, the run finishes with exactly the two messages and
the rendered transcript; typing `keep going` instead appends the line and
recurses. -/
theorem exit_sentinel_spec_witness :
    (conversationLoop "sys" [⟨"user", MessageContent.str "r"⟩] [["a"]] ["EXIT"] =
      ([⟨"claude-3-7-sonnet-20250219", "sys", [⟨"user", MessageContent.str "r"⟩], 4000⟩],
        Outcome.finished [⟨"user", MessageContent.str "r"⟩,
            ⟨"assistant", MessageContent.str "a"⟩]
          (saveConversation [⟨"user", MessageContent.str "r"⟩,
            ⟨"assistant", MessageContent.str "a"⟩]))) ∧
    (conversationLoop "sys" [⟨"user", MessageContent.str "r"⟩] [["a"]] ["keep going"] =
      (⟨"claude-3-7-sonnet-20250219", "sys", [⟨"user", MessageContent.str "r"⟩], 4000⟩ ::
          (conversationLoop "sys" [⟨"user", MessageContent.str "r"⟩,
            ⟨"assistant", MessageContent.str "a"⟩,
            ⟨"user", MessageContent.str "keep going"⟩] [] []).1,
        (conversationLoop "sys" [⟨"user", MessageContent.str "r"⟩,
          ⟨"assistant", MessageContent.str "a"⟩,
          ⟨"user", MessageContent.str "keep going"⟩] [] []).2)) := by
  constructor
  · exact (exit_sentinel_spec "sys" "a" "EXIT" [] [⟨"user", MessageContent.str "r"⟩]
      [] []).1 (by decide)
  · have h := (exit_sentinel_spec "sys" "a" "keep going" [] [⟨"user", MessageContent.str "r"⟩]
      [] []).2 (by decide)
    simpa using h

/-! ## C5: append-only conversation and its length law -/

/-- With scripts of equal length, every reply nonempty and no input the
sentinel, the loop consumes everything and grows the history by exactly two
messages per round. -/
theorem conversationLoop_length (sp : String) :
    ∀ (responses : List (List String)) (inputs : List String) (msgs : List Message),
      (∀ r ∈ responses, r ≠ []) → (∀ u ∈ inputs, str_lower u ≠ "exit") →
      responses.length = inputs.length →
      ((conversationLoop sp msgs responses inputs).2).messages.length
        = msgs.length + 2 * responses.length := by
  intro responses
  induction responses with
  | nil =>
      intro inputs msgs h1 h2 h3
      simp [conversationLoop, Outcome.messages]
  | cons r rs ih =>
      intro inputs msgs h1 h2 h3
      obtain ⟨t, ts, rfl⟩ : ∃ t ts, r = t :: ts := by
        cases r with
        | nil => exact absurd rfl (h1 [] (by simp))
        | cons a b => exact ⟨a, b, rfl⟩
      cases inputs with
      | nil => simp at h3
      | cons u us =>
          have hu : str_lower u ≠ "exit" := h2 u (by simp)
          simp only [conversationLoop, List.head?_cons, if_neg hu]
          have hrec := ih us
            (msgs ++ [Message.mk "assistant" (MessageContent.str t)]
              ++ [Message.mk "user" (MessageContent.str u)])
            (fun q hq => h1 q (by simp [hq]))
            (fun q hq => h2 q (by simp [hq]))
            (by simpa using h3)
          rw [hrec]
          simp only [List.length_append, List.length_cons, List.length_nil]
          omega

/-- C5: the Conversation is append-only — any history the loop starts from
is a prefix of the history it ends with, whatever the scripts — and after
`N` rounds of one nonempty model reply followed by one non-sentinel user
turn, the history that began as the single initial message has length
exactly `1 + 2 * N`. -/
theorem append_only_and_length (sp : String) (m0 : Message)
    (responses : List (List String)) (inputs : List String)
    (h1 : ∀ r ∈ responses, r ≠ []) (h2 : ∀ u ∈ inputs, str_lower u ≠ "exit")
    (h3 : responses.length = inputs.length) :
    (∀ (msgs : List Message) (rs : List (List String)) (is2 : List String),
      msgs <+: ((conversationLoop sp msgs rs is2).2).messages) ∧
    ((conversationLoop sp [m0] responses inputs).2).messages.length
      = 1 + 2 * responses.length := by
  refine ⟨fun msgs rs is2 => conversationLoop_prefix_mono sp rs msgs is2, ?_⟩
  rw [conversationLoop_length sp responses inputs [m0] h1 h2 h3]
  simp

/-- Witness for C5: one round (reply `a`, turn `more`) on top of the
initial message leaves a three-message history. -/
theorem append_only_and_length_witness :
    [(⟨"user", MessageContent.str "r"⟩ : Message)] <+:
      ((conversationLoop "sys" [⟨"user", MessageContent.str "r"⟩] [["a"]] ["more"]).2).messages ∧
    ((conversationLoop "sys" [⟨"user", MessageContent.str "r"⟩] [["a"]] ["more"]).2).messages.length
      = 1 + 2 * 1 := by
  have h := append_only_and_length "sys" ⟨"user", MessageContent.str "r"⟩ [["a"]] ["more"]
    (by decide) (by decide) (by decide)
  exact ⟨h.1 [⟨"user", MessageContent.str "r"⟩] [["a"]] ["more"], by simpa using h.2⟩

/-! ## C8: the assistant reply is appended from the first text segment -/

/-- C8: whenever a response with first text segment `t` arrives, the loop
appends `⟨assistant, t⟩` — the plain extracted text — to the history before
it reads the next operator input: every later history extends
`msgs ++ [assistant t]`. -/
theorem assistant_reply_appended (sp t : String) (ts : List String)
    (msgs : List Message) (responses : List (List String)) (inputs : List String) :
    (msgs ++ [⟨"assistant", MessageContent.str t⟩]) <+:
      ((conversationLoop sp msgs ((t :: ts) :: responses) inputs).2).messages := by
  cases inputs with
  | nil => simp [conversationLoop, Outcome.messages]
  | cons u us =>
      by_cases hu : str_lower u = "exit"
      · simp [conversationLoop, hu, Outcome.messages]
      · simp only [conversationLoop, List.head?_cons, if_neg hu]
        have hmono := conversationLoop_prefix_mono sp responses
          (msgs ++ [Message.mk "assistant" (MessageContent.str t)]
            ++ [Message.mk "user" (MessageContent.str u)]) us
        exact (List.prefix_append (msgs ++ [⟨"assistant", MessageContent.str t⟩])
            [⟨"user", MessageContent.str u⟩]).trans hmono

/-! ## C2: the persisted transcript -/

/-- One transcript block as the spec words it: the upper-cased role label,
a colon, a space, and the message's textual content — a plain string
directly, a part list as the concatenation of its text parts only, image
parts discarded. -/
def transcriptBlock (message : Message) : String :=
  str_upper message.role ++ ": " ++
    (match message.content with
     | .str s => s
     | .parts items => String.join (items.filterMap itemText))

/-- Blocks separated by a blank line, as the spec describes the file
layout. -/
def joinBlocks : List String → String
  | [] => ""
  | [b] => b
  | b :: rest => b ++ "\n\n" ++ joinBlocks rest

/-- Each written block is the spec's block followed by the blank-line
separator. -/
theorem renderMessage_eq_block (message : Message) :
    renderMessage message = transcriptBlock message ++ "\n\n" := by
  obtain ⟨role, content⟩ := message
  cases content <;> simp [renderMessage, transcriptBlock, String.append_assoc]

/-- The file the code writes is the blank-line-separated sequence of spec
blocks, one per message in order, with a final separator after the last
block. -/
theorem saveConversation_eq_blocks :
    ∀ (msgs : List Message), msgs ≠ [] →
      saveConversation msgs = joinBlocks (msgs.map transcriptBlock) ++ "\n\n" := by
  intro msgs
  induction msgs with
  | nil => intro h; exact absurd rfl h
  | cons m rest ih =>
      intro _
      cases rest with
      | nil => simp [saveConversation, joinBlocks, renderMessage_eq_block]
      | cons m2 r2 =>
          have hr := ih (by simp)
          calc saveConversation (m :: m2 :: r2)
              = renderMessage m ++ saveConversation (m2 :: r2) := rfl
            _ = (transcriptBlock m ++ "\n\n")
                  ++ (joinBlocks ((m2 :: r2).map transcriptBlock) ++ "\n\n") := by
                rw [renderMessage_eq_block, hr]
            _ = joinBlocks ((m :: m2 :: r2).map transcriptBlock) ++ "\n\n" := by
                simp only [List.map_cons, joinBlocks, String.append_assoc]

/-- C2: on normal termination the text written to
`amazon_review_conversation.txt` replaces whatever the file held before,
and it is exactly one block per Message of the final Conversation, in
order — each block the upper-cased role, colon, space, and the text-only
content — with blocks separated by a blank line (and the separator also
closing the file). -/
theorem transcript_file_spec (msgs : List Message) (fs : String → Option String)
    (h : msgs ≠ []) :
    saveConversation msgs = joinBlocks (msgs.map transcriptBlock) ++ "\n\n" ∧
    writeFile fs "amazon_review_conversation.txt" (saveConversation msgs)
        "amazon_review_conversation.txt" = some (saveConversation msgs) ∧
    (∀ (sp : String) (rs : List (List String)) (is2 : List String)
        (ms m : List Message) (f : String),
      (conversationLoop sp ms rs is2).2 = Outcome.finished m f →
      f = saveConversation m) := by
  refine ⟨saveConversation_eq_blocks msgs h, by simp [writeFile], ?_⟩
  intro sp rs is2 ms m f hf
  exact conversationLoop_finished_file sp rs ms is2 m f hf

/-- Witness for C2: a two-message conversation renders to the two expected
blocks and overwrites any previous file content. -/
theorem transcript_file_spec_witness :
    saveConversation [⟨"user", MessageContent.str "init"⟩,
        ⟨"assistant", MessageContent.str "hi"⟩]
      = joinBlocks ([⟨"user", MessageContent.str "init"⟩,
          (⟨"assistant", MessageContent.str "hi"⟩ : Message)].map transcriptBlock) ++ "\n\n" ∧
    writeFile (fun _ => some "old text") "amazon_review_conversation.txt"
        (saveConversation [⟨"user", MessageContent.str "init"⟩,
          ⟨"assistant", MessageContent.str "hi"⟩])
        "amazon_review_conversation.txt"
      = some (saveConversation [⟨"user", MessageContent.str "init"⟩,
          ⟨"assistant", MessageContent.str "hi"⟩]) ∧
    (∀ (sp : String) (rs : List (List String)) (is2 : List String)
        (ms m : List Message) (f : String),
      (conversationLoop sp ms rs is2).2 = Outcome.finished m f →
      f = saveConversation m) :=
  transcript_file_spec [⟨"user", MessageContent.str "init"⟩,
    ⟨"assistant", MessageContent.str "hi"⟩] (fun _ => some "old text") (by decide)

/-! ## C3: the first message with no images directory -/

/-- C3: with no `images` directory, the first Message has role `user` and
its content is the single text part `Here is my initial product review:`,
two newlines, the entered review, two newlines — in particular for the
review `Great blender, but lid leaks` — with zero image parts. -/
theorem first_message_no_images (review : String) (listing : List String)
    (fileBytes : String → Option (List Nat)) :
    build_first_message review false listing fileBytes
      = Except.ok ⟨"user", MessageContent.parts [ContentItem.text
          ("Here is my initial product review:\n\n" ++ review ++ "\n\n")]⟩ ∧
    build_first_message "Great blender, but lid leaks" false listing fileBytes
      = Except.ok ⟨"user", MessageContent.parts [ContentItem.text
          "Here is my initial product review:\n\nGreat blender, but lid leaks\n\n"]⟩ := by
  constructor <;>
    simp [build_first_message, get_image_files, buildImageContent,
      first_message_content, Except.map]

/-! ## C4: one image part per recognized file -/

/-- When every listed path is readable, the image-content builder succeeds
and produces exactly the per-path image parts, in order. -/
theorem buildImageContent_total (fileBytes : String → Option (List Nat)) :
    ∀ (paths : List String), (∀ p ∈ paths, fileBytes p ≠ none) →
      buildImageContent fileBytes paths = Except.ok (paths.map fun p =>
        ContentItem.image ("image/" ++ (splitext_ext p).drop 1)
          (b64encode ((fileBytes p).getD []))) := by
  intro paths
  induction paths with
  | nil => intro h; simp [buildImageContent]
  | cons p rest ih =>
      intro h
      obtain ⟨bytes, hb⟩ := Option.ne_none_iff_exists'.mp (h p (by simp))
      have hrest := ih (fun q hq => h q (by simp [hq]))
      simp [buildImageContent, encode_image, hb, hrest, Except.map]

/-- C4: with the `images` directory present and all its recognized files
readable, the first Message carries exactly one image part per file whose
name case-insensitively ends in `.jpg`, `.jpeg`, `.png`, `.gif` or
`.webp`, in listing order; each part's media type is `image/` plus that
file's extension exactly as found, minus the leading dot, and its data is
the base64 encoding of the file's bytes. -/
theorem image_parts_spec (review : String) (listing : List String)
    (fileBytes : String → Option (List Nat))
    (h : ∀ p ∈ get_image_files true listing, fileBytes p ≠ none) :
    ∃ image_content : List ContentItem,
      build_first_message review true listing fileBytes = Except.ok
        ⟨"user", MessageContent.parts (ContentItem.text
          (first_message_content review (get_image_files true listing))
            :: image_content)⟩ ∧
      image_content.length
        = (listing.filter fun file =>
            image_extensions.any fun ext => str_endswith (str_lower file) ext).length ∧
      image_content
        = (listing.filter fun file =>
            image_extensions.any fun ext => str_endswith (str_lower file) ext).map
          fun file =>
            ContentItem.image
              ("image/" ++ (splitext_ext ("images/" ++ file)).drop 1)
              (b64encode ((fileBytes ("images/" ++ file)).getD [])) := by
  refine ⟨(get_image_files true listing).map fun p =>
    ContentItem.image ("image/" ++ (splitext_ext p).drop 1)
      (b64encode ((fileBytes p).getD [])), ?_, ?_, ?_⟩
  · simp [build_first_message, buildImageContent_total fileBytes _ h, Except.map]
  · simp [get_image_files]
  · simp [get_image_files]

/-- Witness for C4: a listing with one upper-cased extension, one
unrecognized file and one dotfile; the constant filesystem returns bytes
`[1, 2, 3]` everywhere. -/
theorem image_parts_spec_witness :
    ∃ image_content : List ContentItem,
      build_first_message "rev" true ["a.JPG", "b.txt", ".png"]
          (fun _ => some [1, 2, 3]) = Except.ok
        ⟨"user", MessageContent.parts (ContentItem.text
          (first_message_content "rev"
            (get_image_files true ["a.JPG", "b.txt", ".png"])) :: image_content)⟩ ∧
      image_content.length
        = (["a.JPG", "b.txt", ".png"].filter fun file =>
            image_extensions.any fun ext => str_endswith (str_lower file) ext).length ∧
      image_content
        = (["a.JPG", "b.txt", ".png"].filter fun file =>
            image_extensions.any fun ext => str_endswith (str_lower file) ext).map
          fun file =>
            ContentItem.image
              ("image/" ++ (splitext_ext ("images/" ++ file)).drop 1)
              (b64encode (((fun (_ : String) => some [1, 2, 3]) ("images/" ++ file)).getD [])) :=
  image_parts_spec "rev" ["a.JPG", "b.txt", ".png"] (fun _ => some [1, 2, 3])
    (fun p _ => by simp)

/-! ## C7: an unreadable image aborts the run -/

/-- An unreadable path in the list makes the builder fail with some
unreadable path as the error. -/
theorem buildImageContent_fails (fileBytes : String → Option (List Nat)) :
    ∀ (paths : List String), (∃ p ∈ paths, fileBytes p = none) →
      ∃ q ∈ paths, fileBytes q = none ∧
        buildImageContent fileBytes paths = Except.error q := by
  intro paths
  induction paths with
  | nil => rintro ⟨p, hp, -⟩; simp at hp
  | cons p rest ih =>
      rintro ⟨q, hq, hqn⟩
      cases hp : fileBytes p with
      | none => exact ⟨p, by simp, hp, by simp [buildImageContent, encode_image, hp]⟩
      | some bytes =>
          have hqrest : q ∈ rest := by
            rcases List.mem_cons.mp hq with rfl | hm
            · rw [hp] at hqn; exact absurd hqn (by simp)
            · exact hm
          obtain ⟨q2, hq2, hq2n, hq2e⟩ := ih ⟨q, hqrest, hqn⟩
          exact ⟨q2, by simp [hq2], hq2n,
            by simp [buildImageContent, encode_image, hp, hq2e, Except.map]⟩

/-- C7: if any discovered image file is unreadable, the whole run is the
fatal error naming an unreadable discovered file — no request list and no
outcome exist, so nothing was sent to the remote service, nothing was
retried, and no partial image set was used. -/
theorem unreadable_image_aborts (review : String) (listing : List String)
    (fileBytes : String → Option (List Nat))
    (responses : List (List String)) (inputs : List String)
    (h : ∃ p ∈ get_image_files true listing, fileBytes p = none) :
    ∃ q ∈ get_image_files true listing, fileBytes q = none ∧
      create_amazon_review review true listing fileBytes responses inputs
        = Except.error q := by
  obtain ⟨q, hq, hqn, hqe⟩ := buildImageContent_fails fileBytes _ h
  exact ⟨q, hq, hqn, by simp [create_amazon_review, build_first_message, hqe, Except.map]⟩

/-- Witness for C7: the only listed file is recognized but unreadable, and
the run is exactly that error. -/
theorem unreadable_image_aborts_witness :
    ∃ q ∈ get_image_files true ["a.jpg"], (fun (_ : String) => (none : Option (List Nat))) q = none ∧
      create_amazon_review "rev" true ["a.jpg"] (fun _ => none) [["hello"]] ["exit"]
        = Except.error q :=
  unreadable_image_aborts "rev" ["a.jpg"] (fun _ => none) [["hello"]] ["exit"]
    ⟨"images/a.jpg", by decide, rfl⟩

/-! ## C9: the system directive is constant and out of band -/

/-- Every request the loop issues carries the same model name, the same
system string the loop was given, and the same token bound. -/
theorem conversationLoop_requests_constant (sp : String) :
    ∀ (responses : List (List String)) (msgs : List Message) (inputs : List String),
      ∀ req ∈ (conversationLoop sp msgs responses inputs).1,
        req.system = sp ∧ req.model = "claude-3-7-sonnet-20250219" ∧
        req.max_tokens = 4000 := by
  intro responses
  induction responses with
  | nil => intro msgs inputs req hreq; simp [conversationLoop] at hreq
  | cons r rs ih =>
      intro msgs inputs req hreq
      cases hr : r.head? with
      | none =>
          simp [conversationLoop, hr] at hreq
          simp [hreq]
      | some t =>
          cases inputs with
          | nil =>
              simp [conversationLoop, hr] at hreq
              simp [hreq]
          | cons u us =>
              by_cases hu : str_lower u = "exit"
              · simp [conversationLoop, hr, hu] at hreq
                simp [hreq]
              · simp only [conversationLoop, hr, if_neg hu, List.mem_cons] at hreq
                rcases hreq with rfl | hm
                · simp
                · exact ih _ us req hm

/-- The loop appends only reply texts and input lines: if no reply text and
no input line is the string `sp`, and the starting history avoids it, no
message of the outcome's history has `sp` as its plain-string content. -/
theorem conversationLoop_content_provenance (sp : String) :
    ∀ (responses : List (List String)) (msgs : List Message) (inputs : List String),
      (∀ m ∈ msgs, m.content ≠ MessageContent.str sp) →
      (∀ r ∈ responses, ∀ t ∈ r, t ≠ sp) →
      (∀ u ∈ inputs, u ≠ sp) →
      ∀ m ∈ ((conversationLoop sp msgs responses inputs).2).messages,
        m.content ≠ MessageContent.str sp := by
  intro responses
  induction responses with
  | nil =>
      intro msgs inputs h1 h2 h3 m hm
      simp [conversationLoop, Outcome.messages] at hm
      exact h1 m hm
  | cons r rs ih =>
      intro msgs inputs h1 h2 h3 m hm
      cases hr : r.head? with
      | none =>
          simp [conversationLoop, hr, Outcome.messages] at hm
          exact h1 m hm
      | some t =>
          have ht : t ≠ sp := h2 r (by simp) t (by
            cases r with
            | nil => simp at hr
            | cons a b => simp at hr; simp [hr])
          have h1a : ∀ m2 ∈ msgs ++ [Message.mk "assistant" (MessageContent.str t)],
              m2.content ≠ MessageContent.str sp := by
            intro m2 hm2
            rcases List.mem_append.mp hm2 with hmem | hmem
            · exact h1 m2 hmem
            · simp at hmem
              simp [hmem, ht]
          cases inputs with
          | nil =>
              simp only [conversationLoop, hr, Outcome.messages] at hm
              exact h1a m hm
          | cons u us =>
              by_cases hu : str_lower u = "exit"
              · simp only [conversationLoop, hr, if_pos hu, Outcome.messages] at hm
                exact h1a m hm
              · simp only [conversationLoop, hr, if_neg hu] at hm
                have h1b : ∀ m2 ∈ (msgs ++ [Message.mk "assistant" (MessageContent.str t)])
                    ++ [Message.mk "user" (MessageContent.str u)],
                    m2.content ≠ MessageContent.str sp := by
                  intro m2 hm2
                  rcases List.mem_append.mp hm2 with hmem | hmem
                  · exact h1a m2 hmem
                  · simp at hmem
                    simp [hmem, h3 u (by simp)]
                exact ih _ us h1b
                  (fun q hq t2 ht2 => h2 q (by simp [hq]) t2 ht2)
                  (fun q hq => h3 q (by simp [hq])) m hm

/-- C9: with the directive `system_prompt` the code passes, every remote
request of a run carries exactly that string as its system field (plus the
fixed model and token bound), independent of the conversation content; and
as long as no scripted reply or input line happens to repeat the directive,
no Message of the final Conversation has the directive as its content — the
directive rides beside the Message sequence, never in it. -/
theorem system_directive_constant (msgs : List Message)
    (responses : List (List String)) (inputs : List String)
    (h1 : ∀ m ∈ msgs, m.content ≠ MessageContent.str system_prompt)
    (h2 : ∀ r ∈ responses, ∀ t ∈ r, t ≠ system_prompt)
    (h3 : ∀ u ∈ inputs, u ≠ system_prompt) :
    (∀ req ∈ (conversationLoop system_prompt msgs responses inputs).1,
        req.system = system_prompt ∧ req.model = "claude-3-7-sonnet-20250219" ∧
        req.max_tokens = 4000) ∧
    (∀ m ∈ ((conversationLoop system_prompt msgs responses inputs).2).messages,
        m.content ≠ MessageContent.str system_prompt) :=
  ⟨fun req hreq => conversationLoop_requests_constant system_prompt responses msgs
      inputs req hreq,
    fun m hm => conversationLoop_content_provenance system_prompt responses msgs
      inputs h1 h2 h3 m hm⟩

/-- Witness for C9: a one-round run whose reply and inputs are short
strings plainly different from the directive. -/
theorem system_directive_constant_witness :
    (∀ req ∈ (conversationLoop system_prompt [⟨"user", MessageContent.str "r"⟩]
        [["a"]] ["exit"]).1,
        req.system = system_prompt ∧ req.model = "claude-3-7-sonnet-20250219" ∧
        req.max_tokens = 4000) ∧
    (∀ m ∈ ((conversationLoop system_prompt [⟨"user", MessageContent.str "r"⟩]
        [["a"]] ["exit"]).2).messages,
        m.content ≠ MessageContent.str system_prompt) :=
  system_directive_constant [⟨"user", MessageContent.str "r"⟩] [["a"]] ["exit"]
    (by decide) (by decide) (by decide)

/-! ## C10: strict role alternation -/

/-- The role position `i` of a strictly alternating conversation carries:
`user` at even positions, `assistant` at odd ones. -/
def roleAt (i : Nat) : String := if i % 2 = 0 then "user" else "assistant"

/-- The messages' roles alternate according to their positions, counted
from `i`. -/
def altFrom (i : Nat) : List Message → Bool
  | [] => true
  | m :: rest => (m.role == roleAt i) && altFrom (i + 1) rest

/-- Appending one message keeps the alternation check exactly when the new
message's role fits the next position. -/
theorem altFrom_append (m : Message) :
    ∀ (l : List Message) (i : Nat),
      altFrom i (l ++ [m]) = (altFrom i l && (m.role == roleAt (i + l.length))) := by
  intro l
  induction l with
  | nil => intro i; simp [altFrom]
  | cons a rest ih =>
      intro i
      have h2 : i + 1 + rest.length = i + (rest.length + 1) := by omega
      simp [altFrom, ih rest.length.succ, ih (i + 1), h2, Bool.and_assoc]

/-- In an alternating list the last message's role is given by the last
position. -/
theorem altFrom_getLast :
    ∀ (l : List Message) (i : Nat) (m : Message),
      altFrom i l = true → l.getLast? = some m → m.role = roleAt (i + l.length - 1) := by
  intro l
  induction l with
  | nil => intro i m h1 h2; simp at h2
  | cons a rest ih =>
      intro i m h1 h2
      cases rest with
      | nil =>
          simp at h2
          simp only [altFrom, Bool.and_eq_true, beq_iff_eq] at h1
          subst h2
          simpa using h1.1
      | cons b r2 =>
          simp only [List.getLast?_cons_cons] at h2
          simp only [altFrom, Bool.and_eq_true, beq_iff_eq] at h1
          have := ih (i + 1) m (by simp [altFrom, h1.2.1, h1.2.2]) h2
          rw [this]
          congr 1
          simp [List.length_cons]
          omega

/-- In an alternating-from-zero list the head is a `user` message. -/
theorem altFrom_head (a : Message) (rest : List Message)
    (h : altFrom 0 (a :: rest) = true) : a.role = "user" := by
  simp only [altFrom, Bool.and_eq_true, beq_iff_eq] at h
  simpa [roleAt] using h.1

/-- The loop invariant: starting from an alternating history of odd length
(so its last message is the user's), every request carries an alternating
odd-length history, every outcome history alternates, and a finished
history has even nonzero length. -/
theorem conversationLoop_alternation (sp : String) :
    ∀ (responses : List (List String)) (msgs : List Message) (inputs : List String),
      altFrom 0 msgs = true → msgs.length % 2 = 1 →
      (∀ req ∈ (conversationLoop sp msgs responses inputs).1,
          altFrom 0 req.messages = true ∧ req.messages.length % 2 = 1) ∧
      altFrom 0 ((conversationLoop sp msgs responses inputs).2).messages = true ∧
      (∀ m f, (conversationLoop sp msgs responses inputs).2 = Outcome.finished m f →
          m.length % 2 = 0 ∧ m ≠ []) := by
  intro responses
  induction responses with
  | nil =>
      intro msgs inputs h1 h2
      refine ⟨?_, ?_, ?_⟩
      · intro req hreq; simp [conversationLoop] at hreq
      · simpa [conversationLoop, Outcome.messages] using h1
      · intro m f hf; simp [conversationLoop] at hf
  | cons r rs ih =>
      intro msgs inputs h1 h2
      have hmsgs2 : altFrom 0 (msgs ++ [Message.mk "assistant" (MessageContent.str
          (r.headD ""))]) = true ∧
          (msgs ++ [Message.mk "assistant" (MessageContent.str (r.headD ""))]).length % 2
            = 0 := by
        have hrole : roleAt (0 + msgs.length) = "assistant" := by
          unfold roleAt
          rw [Nat.zero_add, h2]
          decide
        constructor
        · rw [altFrom_append, hrole]
          simp [h1]
        · simp only [List.length_append, List.length_cons, List.length_nil]
          omega
      cases hr : r.head? with
      | none =>
          refine ⟨?_, ?_, ?_⟩
          · intro req hreq
            simp [conversationLoop, hr] at hreq
            simp [hreq, h1, h2]
          · simpa [conversationLoop, hr, Outcome.messages] using h1
          · intro m f hf; simp [conversationLoop, hr] at hf
      | some t =>
          have htd : r.headD "" = t := by simp [List.headD_eq_head?, hr]
          rw [htd] at hmsgs2
          cases inputs with
          | nil =>
              refine ⟨?_, ?_, ?_⟩
              · intro req hreq
                simp [conversationLoop, hr] at hreq
                simp [hreq, h1, h2]
              · simpa [conversationLoop, hr, Outcome.messages] using hmsgs2.1
              · intro m f hf; simp [conversationLoop, hr] at hf
          | cons u us =>
              by_cases hu : str_lower u = "exit"
              · refine ⟨?_, ?_, ?_⟩
                · intro req hreq
                  simp [conversationLoop, hr, hu] at hreq
                  simp [hreq, h1, h2]
                · simpa [conversationLoop, hr, hu, Outcome.messages] using hmsgs2.1
                · intro m f hf
                  simp [conversationLoop, hr, hu] at hf
                  refine ⟨?_, ?_⟩
                  · rw [← hf.1]; simpa using hmsgs2.2
                  · rw [← hf.1]; simp
              · have hrole2 : roleAt (0 +
                    (msgs ++ [Message.mk "assistant" (MessageContent.str t)]).length)
                      = "user" := by
                  unfold roleAt
                  rw [Nat.zero_add, hmsgs2.2]
                  decide
                have h3 : altFrom 0 ((msgs ++ [Message.mk "assistant" (MessageContent.str t)])
                    ++ [Message.mk "user" (MessageContent.str u)]) = true := by
                  rw [altFrom_append, hrole2]
                  simp [hmsgs2.1]
                have h4 : ((msgs ++ [Message.mk "assistant" (MessageContent.str t)])
                    ++ [Message.mk "user" (MessageContent.str u)]).length % 2 = 1 := by
                  simp [List.length_append]
                  omega
                have hrec := ih ((msgs ++ [Message.mk "assistant" (MessageContent.str t)])
                  ++ [Message.mk "user" (MessageContent.str u)]) us h3 h4
                refine ⟨?_, ?_, ?_⟩
                · intro req hreq
                  simp only [conversationLoop, hr, if_neg hu, List.mem_cons] at hreq
                  rcases hreq with rfl | hm
                  · simp [h1, h2]
                  · exact hrec.1 req hm
                · simp only [conversationLoop, hr, if_neg hu]
                  exact hrec.2.1
                · intro m f hf
                  simp only [conversationLoop, hr, if_neg hu] at hf
                  exact hrec.2.2 m f hf

/-- An alternating history of odd length ends with the user's message. -/
theorem alt_odd_getLast_user (l : List Message) (h1 : altFrom 0 l = true)
    (h2 : l.length % 2 = 1) : l.getLast?.map Message.role = some "user" := by
  have hne : l ≠ [] := fun h => by subst h; simp at h2
  obtain ⟨m, hm⟩ := Option.isSome_iff_exists.mp (List.getLast?_isSome.mpr hne)
  have hrole := altFrom_getLast l 0 m h1 hm
  have hpar : (0 + l.length - 1) % 2 = 0 := by omega
  rw [hm]
  have hu : m.role = "user" := by
    rw [hrole]
    unfold roleAt
    rw [hpar]
    decide
  simp [hu]

/-- A nonempty alternating history of even length ends with the
assistant's message. -/
theorem alt_even_getLast_assistant (l : List Message) (h1 : altFrom 0 l = true)
    (h2 : l.length % 2 = 0) (hne : l ≠ []) :
    l.getLast?.map Message.role = some "assistant" := by
  have hlen : l.length ≠ 0 := by simpa using hne
  obtain ⟨m, hm⟩ := Option.isSome_iff_exists.mp (List.getLast?_isSome.mpr hne)
  have hrole := altFrom_getLast l 0 m h1 hm
  have hpar : (0 + l.length - 1) % 2 = 1 := by omega
  rw [hm]
  have ha : m.role = "assistant" := by
    rw [hrole]
    unfold roleAt
    rw [hpar]
    decide
  simp [ha]

/-- A nonempty alternating history begins with the user's message. -/
theorem alt_head_user (l : List Message) (h1 : altFrom 0 l = true)
    (hne : l ≠ []) : l.head?.map Message.role = some "user" := by
  cases l with
  | nil => exact absurd rfl hne
  | cons a rest => simp [altFrom_head a rest h1]

/-- C10: starting from an alternating history whose last message is the
user's (as the run does, from the single initial `user` message), roles
strictly alternate in every reachable state: every remote request is sent
with a history ending in a `user` message, every outcome history
alternates user/assistant from a `user` head, and at normal termination
the final history alternates, begins with `user` and ends with
`assistant` — so the persisted blocks alternate USER/ASSISTANT. -/
theorem strict_role_alternation (sp : String) (msgs : List Message)
    (responses : List (List String)) (inputs : List String)
    (h1 : altFrom 0 msgs = true) (h2 : msgs.length % 2 = 1) :
    (∀ req ∈ (conversationLoop sp msgs responses inputs).1,
        altFrom 0 req.messages = true ∧
        req.messages.getLast?.map Message.role = some "user") ∧
    altFrom 0 ((conversationLoop sp msgs responses inputs).2).messages = true ∧
    (∀ m f, (conversationLoop sp msgs responses inputs).2 = Outcome.finished m f →
        altFrom 0 m = true ∧ m.head?.map Message.role = some "user" ∧
        m.getLast?.map Message.role = some "assistant") := by
  obtain ⟨hreq, hout, hfin⟩ := conversationLoop_alternation sp responses msgs inputs h1 h2
  refine ⟨fun req hr => ⟨(hreq req hr).1,
    alt_odd_getLast_user _ (hreq req hr).1 (hreq req hr).2⟩, hout, ?_⟩
  intro m f hf
  have hm := hfin m f hf
  have haltm : altFrom 0 m = true := by
    have hmsg : ((conversationLoop sp msgs responses inputs).2).messages = m := by
      rw [hf]; rfl
    rwa [hmsg] at hout
  exact ⟨haltm, alt_head_user m haltm hm.2,
    alt_even_getLast_assistant m haltm hm.1 hm.2⟩

/-- Witness for C10: the immediate-exit run from the single initial user
message; its one request ends in the user message, and the finished
two-message history runs USER then ASSISTANT. -/
theorem strict_role_alternation_witness :
    (∀ req ∈ (conversationLoop "sys" [⟨"user", MessageContent.str "r"⟩]
        [["a"]] ["exit"]).1,
        altFrom 0 req.messages = true ∧
        req.messages.getLast?.map Message.role = some "user") ∧
    altFrom 0 ((conversationLoop "sys" [⟨"user", MessageContent.str "r"⟩]
      [["a"]] ["exit"]).2).messages = true ∧
    (∀ m f, (conversationLoop "sys" [⟨"user", MessageContent.str "r"⟩]
        [["a"]] ["exit"]).2 = Outcome.finished m f →
        altFrom 0 m = true ∧ m.head?.map Message.role = some "user" ∧
        m.getLast?.map Message.role = some "assistant") :=
  strict_role_alternation "sys" [⟨"user", MessageContent.str "r"⟩] [["a"]] ["exit"]
    (by decide) (by decide)

/-! ## C6: empty image set means no image parts and no sharing sentence -/

/-- No tail of `A` lines up with `P`: for every start position inside `A`,
neither is the tail a prefix of `P` nor `P` a prefix of the tail.  Decidable
on concrete `A`, `P`. -/
def noAlign (P A : List Char) : Prop :=
  ∀ i, i < A.length → ¬ (A.drop i) <+: P ∧ ¬ P <+: (A.drop i)

instance (P A : List Char) : Decidable (noAlign P A) := by
  unfold noAlign
  infer_instance

/-- If no tail of `A` lines up with `P`, an occurrence of `P` inside
`A ++ rest` lies entirely inside `rest`. -/
theorem no_infix_of_noAlign (P : List Char) :
    ∀ (A rest : List Char), noAlign P A → P <:+: (A ++ rest) → P <:+: rest := by
  intro A
  induction A with
  | nil => intro rest h hi; simpa using hi
  | cons a A2 ih =>
      intro rest h hi
      rw [List.cons_append] at hi
      rcases List.infix_cons_iff.mp hi with hp | hi2
      · exfalso
        have hp2 : P <+: (a :: A2) ++ rest := by simpa using hp
        have hAp : (a :: A2) <+: (a :: A2) ++ rest := List.prefix_append _ _
        have h0 := h 0 (by simp)
        simp only [List.drop_zero] at h0
        rcases List.prefix_or_prefix_of_prefix hp2 hAp with hc | hc
        · exact h0.2 hc
        · exact h0.1 hc
      · refine ih rest ?_ hi2
        intro i hilen
        have := h (i + 1) (by simpa using Nat.succ_lt_succ hilen)
        simpa using this

/-- An occurrence of `P` in `l ++ [x]`, where `x` is a character `P` does
not contain, is an occurrence in `l`. -/
theorem no_infix_snoc (P l : List Char) (x : Char) (hne : P ≠ []) (hx : x ∉ P)
    (h : P <:+: l ++ [x]) : P <:+: l := by
  obtain ⟨s, t, hst⟩ := h
  rcases List.eq_nil_or_concat t with rfl | ⟨t2, y, hty⟩
  · exfalso
    rw [List.append_nil] at hst
    have hgl : (s ++ P).getLast? = some x := by rw [hst]; exact List.getLast?_concat l
    rw [List.getLast?_append] at hgl
    obtain ⟨p, hp⟩ := Option.isSome_iff_exists.mp (List.getLast?_isSome.mpr hne)
    rw [hp] at hgl
    simp only [Option.or_some] at hgl
    have : p = x := by simpa using hgl
    exact hx (this ▸ List.mem_of_getLast?_eq_some hp)
  · subst hty
    rw [List.concat_eq_append, ← List.append_assoc] at hst
    have h2 := List.append_inj' hst (by simp)
    exact ⟨s, t2, h2.1⟩

/-- The phrase the announcement sentence is recognized by. -/
def sharingPhrase : String := "sharing some images"

/-- With an empty image set, the announcement never enters the text: the
phrase occurs in the first text exactly as often as the operator typed it
themselves. -/
theorem sharing_not_introduced (review : String)
    (h : ¬ (sharingPhrase.data <:+: review.data)) :
    ¬ (sharingPhrase.data <:+: (first_message_content review []).data) := by
  intro hin
  apply h
  have hdata : (first_message_content review []).data
      = "Here is my initial product review:\n\n".data
        ++ (review.data ++ [Char.ofNat 10] ++ [Char.ofNat 10]) := by
    simp [first_message_content, String.data_append]
  rw [hdata] at hin
  have h2 := no_infix_of_noAlign sharingPhrase.data
    "Here is my initial product review:\n\n".data
    (review.data ++ [Char.ofNat 10] ++ [Char.ofNat 10]) (by decide) hin
  have h3 := no_infix_snoc sharingPhrase.data (review.data ++ [Char.ofNat 10])
    (Char.ofNat 10) (by decide) (by decide) h2
  exact no_infix_snoc sharingPhrase.data review.data (Char.ofNat 10)
    (by decide) (by decide) h3

/-- C6: when the `images` directory is absent or holds no
recognized-extension file, the run proceeds without error and the first
Message is exactly the single text part around the review — zero image
parts — and the `sharing some images` sentence is absent from the text
(as long as the operator did not type that phrase inside the review
itself). -/
theorem empty_image_set_spec (review : String) (dirExists : Bool)
    (listing : List String) (fileBytes : String → Option (List Nat))
    (h : get_image_files dirExists listing = []) :
    build_first_message review dirExists listing fileBytes
      = Except.ok ⟨"user", MessageContent.parts [ContentItem.text
          ("Here is my initial product review:\n\n" ++ review ++ "\n\n")]⟩ ∧
    (¬ (sharingPhrase.data <:+: review.data) →
      ¬ (sharingPhrase.data <:+:
          (first_message_content review (get_image_files dirExists listing)).data)) := by
  constructor
  · simp [build_first_message, h, buildImageContent, first_message_content, Except.map]
  · rw [h]
    exact sharing_not_introduced review

/-- Witness for C6: the directory exists but holds only `notes.txt`, which
no recognized extension matches. -/
theorem empty_image_set_spec_witness :
    build_first_message "Great" true ["notes.txt"] (fun _ => none)
      = Except.ok ⟨"user", MessageContent.parts [ContentItem.text
          ("Here is my initial product review:\n\n" ++ "Great" ++ "\n\n")]⟩ ∧
    (¬ (sharingPhrase.data <:+: "Great".data) →
      ¬ (sharingPhrase.data <:+:
          (first_message_content "Great" (get_image_files true ["notes.txt"])).data)) :=
  empty_image_set_spec "Great" true ["notes.txt"] (fun _ => none) (by decide)
